import Mathlib

/-!
Verification of the batch-translation pipeline in `src/translate.py`.

Texts are modelled as `List Char` (Python `str`), a paragraph location as a
`Nat` (Python `id(paragraph)`: an opaque handle with decidable equality).
A `ParaRef` mirrors the dataclass of the same name; `original_text` is an
`Option Text` because `_is_blank` explicitly handles `None`.

The translation client is modelled by the remote's behaviour: a function
from attempt number to `Response`.  The document pipeline `translate_docx`
is modelled by `translate_docx_commits`, parameterised over the translation
function, returning the ordered sequence of `(location, text)` writeback
commits it performs.
-/

/-- A text is a Python string, modelled as a list of characters. -/
abbrev Text : Type := List Char

/-- Characters that Python's `str.strip()` removes (ASCII whitespace). -/
def pyIsSpace (c : Char) : Bool :=
  c = ' ' || c = '\t' || c = '\n' || c = '\r' || c = '\x0b' || c = '\x0c'

/-- `_is_blank` applied to a `str` value: true iff every character is whitespace
(`s.strip() == ""`). -/
def is_blankS (s : Text) : Bool := s.all pyIsSpace

/-- `_is_blank(s)`: `s is None or s.strip() == ""`. -/
def is_blank (s : Option Text) : Bool :=
  match s with
  | none => true
  | some s => is_blankS s

/-- Python `it.original_text or ""`: `None` (and `""`) become `""`. -/
def textOrEmpty (s : Option Text) : Text := s.getD []

/-- `ParaRef`: a paragraph handle together with the text to translate. -/
structure ParaRef where
  paragraph : Nat
  original_text : Option Text
deriving DecidableEq

/-- Fuel-indexed version of the chunk-splitting `while` loop inside `batcher`
(`chunk = txt[start:start+max_total_chars]; start += max_total_chars`).
The fuel only serves structural termination; `splitChunks` instantiates it
with `txt.length`, which suffices whenever `0 < k`. -/
def splitChunksF (k : Nat) : Nat → Text → List Text
  | 0, _ => []
  | _, [] => []
  | fuel + 1, txt => txt.take k :: splitChunksF k fuel (txt.drop k)

/-- The chunks `txt[0:k], txt[k:2k], …` produced by the splitting loop in
`batcher` for an oversized text. -/
def splitChunks (k : Nat) (txt : Text) : List Text :=
  splitChunksF k txt.length txt

/-- The body of the generator `batcher`: processes the remaining items given
the pending batch and its running character total, returning the emitted
batches in order. -/
def batcherGo (maxC maxI : Nat) : List ParaRef → List ParaRef → Nat → List (List ParaRef)
  | [], batch, _ => if batch.isEmpty then [] else [batch]
  | it :: rest, batch, total =>
    let txt := textOrEmpty it.original_text
    let n := txt.length
    if is_blankS txt then
      batcherGo maxC maxI rest batch total
    else if maxC < n then
      (if batch.isEmpty then [] else [batch])
        ++ (splitChunks maxC txt).map (fun c => [ParaRef.mk it.paragraph (some c)])
        ++ batcherGo maxC maxI rest [] 0
    else if maxI < batch.length + 1 ∨ maxC < total + n then
      (if batch.isEmpty then [] else [batch]) ++ batcherGo maxC maxI rest [it] n
    else
      batcherGo maxC maxI rest (batch ++ [it]) (total + n)

/-- `batcher(items, max_total_chars, max_items)` as a whole: the ordered list
of batches the generator yields. -/
def batcher (maxC maxI : Nat) (items : List ParaRef) : List (List ParaRef) :=
  batcherGo maxC maxI items [] 0

/-- Specification view of one `batcher` step: what a single unit contributes
to the concatenation of all emitted batches (nothing when blank, its chunk
refs when oversized, itself otherwise). -/
def expandUnit (maxC : Nat) (it : ParaRef) : List ParaRef :=
  let txt := textOrEmpty it.original_text
  if is_blankS txt then []
  else if maxC < txt.length then
    (splitChunks maxC txt).map (fun c => ParaRef.mk it.paragraph (some c))
  else [it]

/-- Total payload length of a batch (sum of its texts' lengths). -/
def batchPayload (b : List ParaRef) : Nat :=
  (b.map (fun it => (textOrEmpty it.original_text).length)).sum

/-- `RETRY_LIMIT` from the configuration block. -/
def RETRY_LIMIT : Nat := 4

/-- The shape of the `translatedText` field of a remote reply. -/
inductive RespTT where
  | list (xs : List Text)
  | str (s : Text)
  | other
deriving DecidableEq

/-- One remote attempt's outcome: an exception (network error, non-success
status, JSON failure), or a reply carrying a `translatedText` field. -/
inductive Response where
  | err
  | ok (tt : RespTT)
deriving DecidableEq

/-- What one attempt of `libretranslate_translate_batch` produces from a
response: `some out` when the attempt `return`s, `none` when it raises and
falls into the `except` handler (including the `ValueError` for an
unexpected shape).  Note the code returns any list unchanged, without
checking its element count. -/
def attemptResult (texts : List Text) (r : Response) : Option (List Text) :=
  match r with
  | Response.err => none
  | Response.ok (RespTT.list xs) => some xs
  | Response.ok (RespTT.str s) => if texts.length = 1 then some [s] else none
  | Response.ok RespTT.other => none

/-- Observable outcome of `libretranslate_translate_batch`: the returned
list, how many remote attempts were issued, and the `time.sleep` durations
(in seconds) in order. -/
structure TBOut where
  result : List Text
  attemptsMade : Nat
  sleeps : List ℚ
deriving DecidableEq

/-- The retry loop `for attempt in range(1, RETRY_LIMIT + 1)`: `a` is the
current attempt number, `r` the number of attempts still allowed.  On a
failure the loop sleeps `1.5 * attempt` seconds and retries; when the
attempts are exhausted the original `texts` are returned. -/
def tbGo (responses : Nat → Response) (texts : List Text) : Nat → Nat → List ℚ → TBOut
  | a, 0, sleeps => TBOut.mk texts (a - 1) sleeps
  | a, r + 1, sleeps =>
    match attemptResult texts (responses a) with
    | some out => TBOut.mk out a sleeps
    | none => tbGo responses texts (a + 1) r (sleeps ++ [(3 / 2 : ℚ) * a])

/-- `libretranslate_translate_batch(texts, session)`, with the remote's
behaviour abstracted as the response each attempt number receives. -/
def libretranslate_translate_batch (responses : Nat → Response) (texts : List Text) : TBOut :=
  tbGo responses texts 1 RETRY_LIMIT []

/-- `accum.setdefault(key, []).append(ttxt)`: append `t` to the entry of the
first occurrence of key `k`, inserting a fresh entry at the end when absent
(Python dicts preserve insertion order). -/
def accAppend : List (Nat × List Text) → Nat → Text → List (Nat × List Text)
  | [], k, t => [(k, [t])]
  | (k', l) :: rest, k, t =>
    if k' = k then (k', l ++ [t]) :: rest else (k', l) :: accAppend rest k t

/-- Dictionary lookup: `accum[key]` (with `key in accum` as `isSome`). -/
def accLookup : List (Nat × List Text) → Nat → Option (List Text)
  | [], _ => none
  | (k, l) :: rest, p => if k = p then some l else accLookup rest p

/-- The texts sent for a batch: `[b.original_text for b in batch]`. -/
def batchTexts (b : List ParaRef) : List Text :=
  b.map (fun x => textOrEmpty x.original_text)

/-- The accumulation loop of `translate_docx`: for each batch, translate its
texts and append each translated string under its item's paragraph key
(`for bref, ttxt in zip(batch, translated_list)`). -/
def accumulate (tr : List Text → List Text) (batches : List (List ParaRef)) :
    List (Nat × List Text) :=
  batches.foldl
    (fun accum batch =>
      (batch.zip (tr (batchTexts batch))).foldl
        (fun a q => accAppend a q.1.paragraph q.2) accum)
    []

/-- Folding a flat list of `(key, translated text)` pairs into an
accumulator; the nested loop of `accumulate` is equal to this fold over the
concatenation of its per-batch pair lists. -/
def accFoldPairs (ps : List (Nat × Text)) (a : List (Nat × List Text)) :
    List (Nat × List Text) :=
  ps.foldl (fun acc q => accAppend acc q.1 q.2) a

/-- The `(key, translated text)` pairs one batch contributes to the
accumulator: `zip(batch, translated_list)` keyed by `id(bref.paragraph)`. -/
def pairsOfBatch (tr : List Text → List Text) (b : List ParaRef) : List (Nat × Text) :=
  (b.zip (tr (batchTexts b))).map (fun q => (q.1.paragraph, q.2))

/-- The translatable units: `[p for p in all_paras if not _is_blank(p.original_text)]`. -/
def translatableOf (units : List ParaRef) : List ParaRef :=
  units.filter (fun p => !(is_blank p.original_text))

/-- `translate_docx`, modelled down to its observable writeback behaviour:
the ordered sequence of `(location, final_text)` pairs committed by
`clear_and_set_paragraph_text`, with the translation client abstracted as
`tr`.  A unit commits iff its paragraph key is present in the accumulator,
and the committed text is the concatenation of the accumulated chunks. -/
def translate_docx_commits (tr : List Text → List Text) (maxC maxI : Nat)
    (units : List ParaRef) : List (Nat × Text) :=
  let translatable := translatableOf units
  let accum := accumulate tr (batcher maxC maxI translatable)
  translatable.filterMap (fun pref =>
    match accLookup accum pref.paragraph with
    | some chunks => some (pref.paragraph, chunks.flatten)
    | none => none)

/-- A batch consisting of exactly one chunk of an oversized unit of `items`
(the exemption in the spec's batch invariant). -/
def isOversizedChunkBatch (maxC : Nat) (items : List ParaRef) (b : List ParaRef) : Prop :=
  ∃ u ∈ items, ∃ c ∈ splitChunks maxC (textOrEmpty u.original_text),
    maxC < (textOrEmpty u.original_text).length ∧ b = [ParaRef.mk u.paragraph (some c)]

/-! ### Facts about the chunk-splitting loop -/

theorem splitChunksF_nil (k fuel : Nat) : splitChunksF k fuel [] = [] := by
  cases fuel <;> rfl

theorem splitChunks_nil (k : Nat) : splitChunks k [] = [] := rfl

theorem splitChunksF_congr (k : Nat) (hk : 0 < k) :
    ∀ f1 f2 (l : Text), l.length ≤ f1 → l.length ≤ f2 →
      splitChunksF k f1 l = splitChunksF k f2 l := by
  intro f1
  induction f1 with
  | zero =>
    intro f2 l h1 _
    have : l = [] := List.length_eq_zero.mp (Nat.le_zero.mp h1)
    subst this
    rw [splitChunksF_nil, splitChunksF_nil]
  | succ m ih =>
    intro f2 l h1 h2
    cases l with
    | nil => rw [splitChunksF_nil, splitChunksF_nil]
    | cons c cs =>
      cases f2 with
      | zero => simp at h2
      | succ m2 =>
        show (c :: cs).take k :: splitChunksF k m ((c :: cs).drop k)
            = (c :: cs).take k :: splitChunksF k m2 ((c :: cs).drop k)
        have hd : ((c :: cs).drop k).length ≤ m := by
          rw [List.length_drop]; simp at h1 ⊢; omega
        have hd2 : ((c :: cs).drop k).length ≤ m2 := by
          rw [List.length_drop]; simp at h2 ⊢; omega
        rw [ih _ _ hd hd2]

theorem splitChunks_eq (k : Nat) (hk : 0 < k) (l : Text) :
    splitChunks k l = if l = [] then [] else l.take k :: splitChunks k (l.drop k) := by
  by_cases hl : l = []
  · subst hl; simp [splitChunks_nil]
  · rw [if_neg hl]
    cases l with
    | nil => exact absurd rfl hl
    | cons c cs =>
      show splitChunksF k (c :: cs).length (c :: cs) = _
      rw [show (c :: cs).length = cs.length + 1 from rfl]
      show (c :: cs).take k :: splitChunksF k cs.length ((c :: cs).drop k) = _
      unfold splitChunks
      rw [splitChunksF_congr k hk cs.length ((c :: cs).drop k).length ((c :: cs).drop k)
        (by rw [List.length_drop]; simp; omega) le_rfl]

theorem splitChunks_ne_nil (k : Nat) (hk : 0 < k) (l : Text) (hl : l ≠ []) :
    splitChunks k l ≠ [] := by
  rw [splitChunks_eq k hk l, if_neg hl]
  exact List.cons_ne_nil _ _

theorem splitChunks_flatten (k : Nat) (hk : 0 < k) (l : Text) :
    (splitChunks k l).flatten = l := by
  rw [splitChunks_eq k hk l]
  by_cases hl : l = []
  · simp [hl]
  · rw [if_neg hl, List.flatten_cons, splitChunks_flatten k hk (l.drop k),
      List.take_append_drop]
termination_by l.length
decreasing_by
  rw [List.length_drop]
  have := List.length_pos.mpr hl
  omega

theorem splitChunks_length (k : Nat) (hk : 0 < k) (l : Text) :
    (splitChunks k l).length = (l.length + k - 1) / k := by
  rw [splitChunks_eq k hk l]
  by_cases hl : l = []
  · subst hl
    rw [if_pos rfl]
    simp only [List.length_nil]
    rw [Nat.div_eq_of_lt (by omega)]
  · rw [if_neg hl, List.length_cons, splitChunks_length k hk (l.drop k), List.length_drop]
    have hn : 0 < l.length := List.length_pos.mpr hl
    rcases le_or_lt l.length k with h | h
    · have h1 : l.length - k = 0 := by omega
      rw [h1, Nat.div_eq_of_lt (by omega)]
      have h2 : l.length + k - 1 = (l.length - 1) + k := by omega
      rw [h2, Nat.add_div_right _ hk, Nat.div_eq_of_lt (by omega)]
    · have h2 : l.length - k + k - 1 = (l.length - 1 - k) + k := by omega
      have h3 : l.length + k - 1 = (l.length - 1) + k := by omega
      rw [h2, h3, Nat.add_div_right _ hk, Nat.add_div_right _ hk]
      have h4 : l.length - 1 - k + k = l.length - 1 := by omega
      conv_rhs => rw [← h4, Nat.add_div_right _ hk]
termination_by l.length
decreasing_by
  rw [List.length_drop]
  have := List.length_pos.mpr hl
  omega

theorem splitChunks_getD (k : Nat) (hk : 0 < k) (l : Text) (i : Nat)
    (h : i < (splitChunks k l).length) :
    (splitChunks k l).getD i [] = (l.drop (i * k)).take k := by
  by_cases hl : l = []
  · subst hl; rw [splitChunks_nil] at h; simp at h
  · have he := splitChunks_eq k hk l
    rw [if_neg hl] at he
    rw [he]
    cases i with
    | zero => simp
    | succ j =>
      rw [List.getD_cons_succ]
      rw [he] at h
      rw [List.length_cons] at h
      rw [splitChunks_getD k hk (l.drop k) j (by omega), List.drop_drop]
      have : k + j * k = (j + 1) * k := by ring
      rw [this]
termination_by l.length
decreasing_by
  rw [List.length_drop]
  have := List.length_pos.mpr hl
  omega

theorem splitChunksF_mem_length (k : Nat) :
    ∀ fuel (l : Text) c, c ∈ splitChunksF k fuel l → c.length ≤ k := by
  intro fuel
  induction fuel with
  | zero => intro l c hc; simp [splitChunksF] at hc
  | succ m ih =>
    intro l c hc
    cases l with
    | nil => rw [splitChunksF_nil] at hc; simp at hc
    | cons x xs =>
      rcases List.mem_cons.mp hc with h | h
      · subst h; exact List.length_take_le _ _
      · exact ih _ _ h

theorem splitChunks_mem_length (k : Nat) (l : Text) (c : Text)
    (hc : c ∈ splitChunks k l) : c.length ≤ k :=
  splitChunksF_mem_length k _ l c hc

theorem splitChunks_getD_full (k : Nat) (hk : 0 < k) (l : Text) (i : Nat)
    (h : i + 1 < (splitChunks k l).length) :
    ((splitChunks k l).getD i []).length = k := by
  rw [splitChunks_getD k hk l i (by omega)]
  rw [splitChunks_length k hk l] at h
  have hmul : (i + 2) * k ≤ l.length + k - 1 :=
    (Nat.le_div_iff_mul_le hk).mp (by omega)
  have hexp : (i + 2) * k = i * k + 2 * k := by ring
  rw [List.length_take, List.length_drop]
  omega

/-! ### Structure of the batcher output -/

theorem flatten_flush {α : Type} (batch : List α) :
    (if batch.isEmpty then ([] : List (List α)) else [batch]).flatten = batch := by
  cases batch <;> simp

theorem flatten_singletons {α β : Type} (l : List α) (f : α → β) :
    (l.map (fun c => [f c])).flatten = l.map f := by
  induction l with
  | nil => rfl
  | cons x xs ih => simp [ih]

/-- The concatenation of all batches the generator emits is the pending
batch followed by each remaining unit's expansion, in input order. -/
theorem batcherGo_flatten (maxC maxI : Nat) :
    ∀ (items batch : List ParaRef) (total : Nat),
      (batcherGo maxC maxI items batch total).flatten
        = batch ++ items.flatMap (expandUnit maxC) := by
  intro items
  induction items with
  | nil =>
    intro batch total
    cases batch <;> simp [batcherGo]
  | cons it rest ih =>
    intro batch total
    by_cases hbl : is_blankS (textOrEmpty it.original_text)
    · rw [show batcherGo maxC maxI (it :: rest) batch total
          = batcherGo maxC maxI rest batch total by simp [batcherGo, hbl]]
      rw [ih batch total]
      simp [expandUnit, hbl]
    · by_cases hov : maxC < (textOrEmpty it.original_text).length
      · rw [show batcherGo maxC maxI (it :: rest) batch total
            = (if batch.isEmpty then [] else [batch])
              ++ (splitChunks maxC (textOrEmpty it.original_text)).map
                  (fun c => [ParaRef.mk it.paragraph (some c)])
              ++ batcherGo maxC maxI rest [] 0 by simp [batcherGo, hbl, hov]]
        rw [List.flatten_append, List.flatten_append, flatten_flush,
          flatten_singletons, ih [] 0]
        simp only [List.nil_append, List.flatMap_cons, expandUnit, hbl, hov]
        simp
      · by_cases hg : maxI < batch.length + 1 ∨ maxC < total + (textOrEmpty it.original_text).length
        · rw [show batcherGo maxC maxI (it :: rest) batch total
              = (if batch.isEmpty then [] else [batch])
                ++ batcherGo maxC maxI rest [it] (textOrEmpty it.original_text).length by
              simp [batcherGo, hbl, hov, hg]]
          rw [List.flatten_append, flatten_flush, ih]
          simp [expandUnit, hbl, hov]
        · rw [show batcherGo maxC maxI (it :: rest) batch total
              = batcherGo maxC maxI rest (batch ++ [it])
                  (total + (textOrEmpty it.original_text).length) by
              simp [batcherGo, hbl, hov, hg]]
          rw [ih]
          simp [expandUnit, hbl, hov]

/-- Every element contributed to a batch by a unit's expansion carries that
unit's paragraph handle. -/
theorem expandUnit_paragraph (maxC : Nat) (u : ParaRef) :
    ∀ it ∈ expandUnit maxC u, it.paragraph = u.paragraph := by
  intro it hit
  unfold expandUnit at hit
  by_cases hbl : is_blankS (textOrEmpty u.original_text)
  · simp [hbl] at hit
  · by_cases hov : maxC < (textOrEmpty u.original_text).length
    · simp [hbl, hov] at hit
      obtain ⟨c, _, hc⟩ := hit
      rw [← hc]
    · simp [hbl, hov] at hit
      rw [hit]

/-- `expandUnit` on a non-blank unit, with the blank test discharged. -/
theorem expandUnit_not_blank (maxC : Nat) (u : ParaRef)
    (hnb : is_blankS (textOrEmpty u.original_text) = false) :
    expandUnit maxC u
      = if maxC < (textOrEmpty u.original_text).length
        then (splitChunks maxC (textOrEmpty u.original_text)).map
              (fun c => ParaRef.mk u.paragraph (some c))
        else [u] := by
  simp [expandUnit, hnb]

/-- A non-blank unit's expansion is non-empty whenever `0 < maxC`. -/
theorem expandUnit_ne_nil (maxC : Nat) (hC : 0 < maxC) (u : ParaRef)
    (hnb : is_blankS (textOrEmpty u.original_text) = false) :
    expandUnit maxC u ≠ [] := by
  rw [expandUnit_not_blank maxC u hnb]
  by_cases hov : maxC < (textOrEmpty u.original_text).length
  · rw [if_pos hov]
    have hne : textOrEmpty u.original_text ≠ [] := by
      intro h
      rw [h] at hov
      simp at hov
    intro h
    exact splitChunks_ne_nil maxC hC _ hne (List.map_eq_nil_iff.mp h)
  · rw [if_neg hov]
    exact List.cons_ne_nil _ _

/-- With identity translation, the texts of a unit's expansion concatenate
back to the unit's own text. -/
theorem expandUnit_texts_flatten (maxC : Nat) (hC : 0 < maxC) (u : ParaRef)
    (hnb : is_blankS (textOrEmpty u.original_text) = false) :
    ((expandUnit maxC u).map (fun it => textOrEmpty it.original_text)).flatten
      = textOrEmpty u.original_text := by
  rw [expandUnit_not_blank maxC u hnb]
  by_cases hov : maxC < (textOrEmpty u.original_text).length
  · rw [if_pos hov, List.map_map]
    have : (fun it : ParaRef => textOrEmpty it.original_text)
        ∘ (fun c => ParaRef.mk u.paragraph (some c)) = id := by
      funext c
      rfl
    rw [this, List.map_id]
    exact splitChunks_flatten maxC hC _
  · rw [if_neg hov]
    simp

/-! ### Batch size invariants -/

theorem batchPayload_nil : batchPayload [] = 0 := rfl

theorem batchPayload_append (b1 b2 : List ParaRef) :
    batchPayload (b1 ++ b2) = batchPayload b1 + batchPayload b2 := by
  simp [batchPayload]

theorem batchPayload_singleton (it : ParaRef) :
    batchPayload [it] = (textOrEmpty it.original_text).length := by
  simp [batchPayload]

/-- Invariant of the batching loop: starting from a pending batch within
both limits whose running total is accurate, every batch the generator
emits is non-empty, within the character limit, and within the item
limit (assuming `1 ≤ maxI`). -/
theorem batcherGo_bounds (maxC maxI : Nat) (hI : 1 ≤ maxI) :
    ∀ (items batch : List ParaRef) (total : Nat),
      batch.length ≤ maxI → batchPayload batch ≤ maxC → total = batchPayload batch →
      ∀ b ∈ batcherGo maxC maxI items batch total,
        b ≠ [] ∧ batchPayload b ≤ maxC ∧ b.length ≤ maxI := by
  intro items
  induction items with
  | nil =>
    intro batch total hlen hpay _ b hb
    cases batch with
    | nil => simp [batcherGo] at hb
    | cons x xs =>
      simp [batcherGo] at hb
      subst hb
      exact ⟨List.cons_ne_nil _ _, hpay, hlen⟩
  | cons it rest ih =>
    intro batch total hlen hpay htot b hb
    by_cases hbl : is_blankS (textOrEmpty it.original_text)
    · rw [show batcherGo maxC maxI (it :: rest) batch total
          = batcherGo maxC maxI rest batch total by simp [batcherGo, hbl]] at hb
      exact ih batch total hlen hpay htot b hb
    · by_cases hov : maxC < (textOrEmpty it.original_text).length
      · rw [show batcherGo maxC maxI (it :: rest) batch total
            = (if batch.isEmpty then [] else [batch])
              ++ (splitChunks maxC (textOrEmpty it.original_text)).map
                  (fun c => [ParaRef.mk it.paragraph (some c)])
              ++ batcherGo maxC maxI rest [] 0 by simp [batcherGo, hbl, hov]] at hb
        rcases List.mem_append.mp hb with hb1 | hb2
        · rcases List.mem_append.mp hb1 with hb3 | hb4
          · cases batch with
            | nil => simp at hb3
            | cons x xs =>
              simp at hb3
              subst hb3
              exact ⟨List.cons_ne_nil _ _, hpay, hlen⟩
          · obtain ⟨c, hc, hbc⟩ := List.mem_map.mp hb4
            subst hbc
            refine ⟨List.cons_ne_nil _ _, ?_, by simpa using hI⟩
            rw [batchPayload_singleton]
            exact splitChunks_mem_length maxC _ c hc
        · exact ih [] 0 (by simp) (by simp [batchPayload_nil]) rfl b hb2
      · by_cases hg : maxI < batch.length + 1
          ∨ maxC < total + (textOrEmpty it.original_text).length
        · rw [show batcherGo maxC maxI (it :: rest) batch total
              = (if batch.isEmpty then [] else [batch])
                ++ batcherGo maxC maxI rest [it] (textOrEmpty it.original_text).length by
              simp [batcherGo, hbl, hov, hg]] at hb
          rcases List.mem_append.mp hb with hb1 | hb2
          · cases batch with
            | nil => simp at hb1
            | cons x xs =>
              simp at hb1
              subst hb1
              exact ⟨List.cons_ne_nil _ _, hpay, hlen⟩
          · refine ih [it] _ (by simpa using hI) ?_ (batchPayload_singleton it).symm b hb2
            rw [batchPayload_singleton]
            omega
        · rw [show batcherGo maxC maxI (it :: rest) batch total
              = batcherGo maxC maxI rest (batch ++ [it])
                  (total + (textOrEmpty it.original_text).length) by
              simp [batcherGo, hbl, hov, hg]] at hb
          push_neg at hg
          refine ih (batch ++ [it]) _ ?_ ?_ ?_ b hb
          · rw [List.length_append, List.length_singleton]
            omega
          · rw [batchPayload_append, batchPayload_singleton]
            omega
          · rw [batchPayload_append, batchPayload_singleton, htot]

/-- `batcher` ignores blank units entirely: filtering them away first does
not change the emitted batches. -/
theorem batcherGo_filter_blank (maxC maxI : Nat) :
    ∀ (items batch : List ParaRef) (total : Nat),
      batcherGo maxC maxI items batch total
        = batcherGo maxC maxI (items.filter (fun u => !(is_blank u.original_text)))
            batch total := by
  intro items
  induction items with
  | nil => intro batch total; rfl
  | cons it rest ih =>
    intro batch total
    have hsame : is_blank it.original_text = is_blankS (textOrEmpty it.original_text) := by
      cases h : it.original_text with
      | none => rfl
      | some s => rfl
    by_cases hbl : is_blankS (textOrEmpty it.original_text)
    · rw [show batcherGo maxC maxI (it :: rest) batch total
          = batcherGo maxC maxI rest batch total by simp [batcherGo, hbl]]
      rw [show (it :: rest).filter (fun u => !(is_blank u.original_text))
          = rest.filter (fun u => !(is_blank u.original_text)) by
        simp [List.filter_cons, hsame, hbl]]
      exact ih batch total
    · rw [show (it :: rest).filter (fun u => !(is_blank u.original_text))
          = it :: rest.filter (fun u => !(is_blank u.original_text)) by
        simp [List.filter_cons, hsame, hbl]]
      by_cases hov : maxC < (textOrEmpty it.original_text).length
      · rw [show batcherGo maxC maxI (it :: rest) batch total
            = (if batch.isEmpty then [] else [batch])
              ++ (splitChunks maxC (textOrEmpty it.original_text)).map
                  (fun c => [ParaRef.mk it.paragraph (some c)])
              ++ batcherGo maxC maxI rest [] 0 by simp [batcherGo, hbl, hov]]
        rw [show batcherGo maxC maxI
              (it :: rest.filter (fun u => !(is_blank u.original_text))) batch total
            = (if batch.isEmpty then [] else [batch])
              ++ (splitChunks maxC (textOrEmpty it.original_text)).map
                  (fun c => [ParaRef.mk it.paragraph (some c)])
              ++ batcherGo maxC maxI (rest.filter (fun u => !(is_blank u.original_text)))
                  [] 0 by simp [batcherGo, hbl, hov]]
        rw [ih [] 0]
      · by_cases hg : maxI < batch.length + 1
          ∨ maxC < total + (textOrEmpty it.original_text).length
        · rw [show batcherGo maxC maxI (it :: rest) batch total
              = (if batch.isEmpty then [] else [batch])
                ++ batcherGo maxC maxI rest [it] (textOrEmpty it.original_text).length by
              simp [batcherGo, hbl, hov, hg]]
          rw [show batcherGo maxC maxI
                (it :: rest.filter (fun u => !(is_blank u.original_text))) batch total
              = (if batch.isEmpty then [] else [batch])
                ++ batcherGo maxC maxI (rest.filter (fun u => !(is_blank u.original_text)))
                    [it] (textOrEmpty it.original_text).length by
              simp [batcherGo, hbl, hov, hg]]
          rw [ih [it] _]
        · rw [show batcherGo maxC maxI (it :: rest) batch total
              = batcherGo maxC maxI rest (batch ++ [it])
                  (total + (textOrEmpty it.original_text).length) by
              simp [batcherGo, hbl, hov, hg]]
          rw [show batcherGo maxC maxI
                (it :: rest.filter (fun u => !(is_blank u.original_text))) batch total
              = batcherGo maxC maxI (rest.filter (fun u => !(is_blank u.original_text)))
                  (batch ++ [it]) (total + (textOrEmpty it.original_text).length) by
              simp [batcherGo, hbl, hov, hg]]
          rw [ih (batch ++ [it]) _]

/-! ### The accumulator -/

theorem is_blank_eq (o : Option Text) : is_blank o = is_blankS (textOrEmpty o) := by
  cases o <;> rfl

theorem accLookup_accAppend (a : List (Nat × List Text)) (k : Nat) (t : Text) (p : Nat) :
    accLookup (accAppend a k t) p
      = if k = p then some ((accLookup a k).getD [] ++ [t]) else accLookup a p := by
  induction a with
  | nil =>
    by_cases h : k = p
    · subst h; simp [accAppend, accLookup]
    · simp [accAppend, accLookup, h]
  | cons e rest ih =>
    obtain ⟨ke, le⟩ := e
    by_cases h1 : ke = k
    · subst h1
      by_cases h2 : ke = p
      · subst h2; simp [accAppend, accLookup]
      · simp [accAppend, accLookup, h2]
    · by_cases h2 : ke = p
      · subst h2
        have hkp : ¬(k = ke) := fun h => h1 h.symm
        simp [accAppend, accLookup, h1, hkp]
      · simp [accAppend, accLookup, h1, h2, ih]

theorem accFoldPairs_lookup (p : Nat) :
    ∀ (ps : List (Nat × Text)) (a : List (Nat × List Text)),
      accLookup (accFoldPairs ps a) p =
        match accLookup a p with
        | some l => some (l ++ (ps.filter (fun q => q.1 == p)).map Prod.snd)
        | none =>
          if ps.any (fun q => q.1 == p)
          then some ((ps.filter (fun q => q.1 == p)).map Prod.snd)
          else none := by
  intro ps
  induction ps with
  | nil =>
    intro a
    cases h : accLookup a p <;> simp [accFoldPairs, h]
  | cons q rest ih =>
    intro a
    have hstep : accFoldPairs (q :: rest) a = accFoldPairs rest (accAppend a q.1 q.2) := rfl
    rw [hstep, ih (accAppend a q.1 q.2), accLookup_accAppend a q.1 q.2 p]
    by_cases hq : q.1 = p
    · subst hq
      cases h : accLookup a q.1 with
      | some l => simp [h, List.filter_cons, List.any_cons]
      | none => simp [h, List.filter_cons, List.any_cons]
    · have hbeq : (q.1 == p) = false := by simp [hq]
      cases h : accLookup a p with
      | some l => simp [h, hq, hbeq, List.filter_cons, List.any_cons]
      | none =>
        rw [List.filter_cons_of_neg (by simp [hq]), List.any_cons, if_neg hq, hbeq,
          Bool.false_or]

theorem any_map_general {α β : Type} (f : α → β) (l : List α) (pr : β → Bool) :
    (l.map f).any pr = l.any (fun x => pr (f x)) := by
  induction l with
  | nil => rfl
  | cons x xs ih => simp [List.any_cons, ih]

theorem accumulate_eq_accFoldPairs (tr : List Text → List Text) :
    ∀ (batches : List (List ParaRef)) (a : List (Nat × List Text)),
      batches.foldl
        (fun accum batch =>
          (batch.zip (tr (batchTexts batch))).foldl
            (fun acc q => accAppend acc q.1.paragraph q.2) accum) a
        = accFoldPairs ((batches.map (pairsOfBatch tr)).flatten) a := by
  intro batches
  induction batches with
  | nil => intro a; rfl
  | cons b bs ih =>
    intro a
    rw [List.foldl_cons, ih]
    have hinner : (b.zip (tr (batchTexts b))).foldl
        (fun acc q => accAppend acc q.1.paragraph q.2) a
        = accFoldPairs (pairsOfBatch tr b) a := by
      unfold accFoldPairs pairsOfBatch
      rw [List.foldl_map]
    rw [hinner,
      show ((b :: bs).map (pairsOfBatch tr)).flatten
        = pairsOfBatch tr b ++ (bs.map (pairsOfBatch tr)).flatten by simp]
    unfold accFoldPairs
    rw [List.foldl_append]

theorem accumulate_def (tr : List Text → List Text) (batches : List (List ParaRef)) :
    accumulate tr batches = accFoldPairs ((batches.map (pairsOfBatch tr)).flatten) [] :=
  accumulate_eq_accFoldPairs tr batches []

theorem pairsOfBatch_keys (tr : List Text → List Text)
    (htr : ∀ l, (tr l).length = l.length) (b : List ParaRef) :
    (pairsOfBatch tr b).map Prod.fst = b.map (fun it => it.paragraph) := by
  unfold pairsOfBatch
  rw [List.map_map]
  have hc : (Prod.fst ∘ fun q : ParaRef × Text => (q.1.paragraph, q.2))
      = (fun it : ParaRef => it.paragraph) ∘ Prod.fst := rfl
  rw [hc, ← List.map_map, List.map_fst_zip]
  rw [htr (batchTexts b)]
  unfold batchTexts
  rw [List.length_map]

theorem pairsOfBatch_id (b : List ParaRef) :
    pairsOfBatch (fun ts => ts) b
      = b.map (fun it => (it.paragraph, textOrEmpty it.original_text)) := by
  unfold pairsOfBatch batchTexts
  rw [show b.zip (b.map (fun x => textOrEmpty x.original_text))
      = (b.map id).zip (b.map (fun x => textOrEmpty x.original_text)) by rw [List.map_id]]
  rw [List.zip_map', List.map_map]
  rfl

theorem accumulate_keys (tr : List Text → List Text)
    (htr : ∀ l, (tr l).length = l.length) (batches : List (List ParaRef)) :
    ((batches.map (pairsOfBatch tr)).flatten).map Prod.fst
      = batches.flatten.map (fun it => it.paragraph) := by
  rw [List.map_flatten, List.map_flatten, List.map_map]
  have : (List.map Prod.fst ∘ pairsOfBatch tr)
      = List.map (fun it : ParaRef => it.paragraph) :=
    funext (fun b => pairsOfBatch_keys tr htr b)
  rw [this]

theorem accumulate_lookup (tr : List Text → List Text)
    (htr : ∀ l, (tr l).length = l.length) (batches : List (List ParaRef)) (p : Nat) :
    accLookup (accumulate tr batches) p
      = if (batches.flatten.map (fun it => it.paragraph)).any (fun x => x == p)
        then some ((((batches.map (pairsOfBatch tr)).flatten).filter
            (fun q => q.1 == p)).map Prod.snd)
        else none := by
  rw [accumulate_def, accFoldPairs_lookup]
  show (if ((batches.map (pairsOfBatch tr)).flatten).any (fun q => q.1 == p)
      then _ else none) = _
  have hany : ((batches.map (pairsOfBatch tr)).flatten).any (fun q => q.1 == p)
      = (batches.flatten.map (fun it => it.paragraph)).any (fun x => x == p) := by
    rw [← accumulate_keys tr htr batches, any_map_general]
  rw [hany]

theorem accumulate_lookup_id (batches : List (List ParaRef)) (p : Nat) :
    accLookup (accumulate (fun ts => ts) batches) p
      = if (batches.flatten.map (fun it => it.paragraph)).any (fun x => x == p)
        then some ((batches.flatten.filter (fun it => it.paragraph == p)).map
            (fun it => textOrEmpty it.original_text))
        else none := by
  rw [accumulate_lookup (fun ts => ts) (fun _ => rfl) batches p]
  have hpairs : batches.map (pairsOfBatch (fun ts => ts))
      = batches.map (List.map (fun it : ParaRef => (it.paragraph, textOrEmpty it.original_text))) :=
    List.map_congr_left (fun b _ => pairsOfBatch_id b)
  rw [hpairs, ← List.map_flatten, List.filter_map, List.map_map]
  rfl

/-! ### The writeback pass -/

theorem translate_docx_commits_def (tr : List Text → List Text) (maxC maxI : Nat)
    (units : List ParaRef) :
    translate_docx_commits tr maxC maxI units
      = (translatableOf units).filterMap (fun pref =>
          match accLookup (accumulate tr (batcher maxC maxI (translatableOf units)))
              pref.paragraph with
          | some chunks => some (pref.paragraph, chunks.flatten)
          | none => none) := rfl

theorem filterMap_eq_map_of_forall {α β : Type} (f : α → Option β) (g : α → β) :
    ∀ l : List α, (∀ x ∈ l, f x = some (g x)) → l.filterMap f = l.map g := by
  intro l
  induction l with
  | nil => intro _; rfl
  | cons x xs ih =>
    intro h
    rw [List.filterMap_cons, h x (List.mem_cons_self x xs), List.map_cons,
      ih (fun y hy => h y (List.mem_cons_of_mem x hy))]

theorem batcher_flatten (maxC maxI : Nat) (items : List ParaRef) :
    (batcher maxC maxI items).flatten = items.flatMap (expandUnit maxC) := by
  rw [batcher, batcherGo_flatten, List.nil_append]

theorem mem_translatable_not_blank (units : List ParaRef) (pref : ParaRef)
    (h : pref ∈ translatableOf units) :
    is_blankS (textOrEmpty pref.original_text) = false := by
  have h2 := (List.mem_filter.mp h).2
  rw [is_blank_eq] at h2
  cases hb : is_blankS (textOrEmpty pref.original_text)
  · rfl
  · rw [hb] at h2; simp at h2

/-- Every unit of `items` that is non-blank appears, through one of its
chunks, in the concatenation of the batches built from `items`. -/
theorem paragraph_covered (maxC maxI : Nat) (hC : 0 < maxC) (items : List ParaRef)
    (u : ParaRef) (hu : u ∈ items)
    (hnb : is_blankS (textOrEmpty u.original_text) = false) :
    ∃ it ∈ (batcher maxC maxI items).flatten, it.paragraph = u.paragraph := by
  rw [batcher_flatten]
  cases hexp : expandUnit maxC u with
  | nil => exact absurd hexp (expandUnit_ne_nil maxC hC u hnb)
  | cons it' l' =>
    refine ⟨it', List.mem_flatMap.mpr ⟨u, hu, ?_⟩, ?_⟩
    · rw [hexp]; exact List.mem_cons_self it' l'
    · exact expandUnit_paragraph maxC u it' (by rw [hexp]; exact List.mem_cons_self it' l')

/-- With a length-preserving translation function, the writeback pass
commits to exactly the translatable units' locations, in order. -/
theorem commits_map_fst (tr : List Text → List Text) (maxC maxI : Nat)
    (units : List ParaRef) (hC : 0 < maxC)
    (htr : ∀ l, (tr l).length = l.length) :
    (translate_docx_commits tr maxC maxI units).map Prod.fst
      = (translatableOf units).map (fun u => u.paragraph) := by
  rw [translate_docx_commits_def]
  have hmain : ∀ pref ∈ translatableOf units,
      (fun pref : ParaRef =>
        match accLookup (accumulate tr (batcher maxC maxI (translatableOf units)))
            pref.paragraph with
        | some chunks => some (pref.paragraph, chunks.flatten)
        | none => none) pref
      = some ((fun pref : ParaRef =>
          (pref.paragraph,
            ((accLookup (accumulate tr (batcher maxC maxI (translatableOf units)))
              pref.paragraph).getD []).flatten)) pref) := by
    intro pref hpref
    dsimp only
    have hnb := mem_translatable_not_blank units pref hpref
    obtain ⟨it, hit, hpara⟩ :=
      paragraph_covered maxC maxI hC (translatableOf units) pref hpref hnb
    have hany : ((batcher maxC maxI (translatableOf units)).flatten.map
        (fun it => it.paragraph)).any (fun x => x == pref.paragraph) = true := by
      refine List.any_eq_true.mpr ⟨it.paragraph, List.mem_map_of_mem _ hit, ?_⟩
      rw [hpara]
      exact beq_self_eq_true _
    rw [accumulate_lookup tr htr _ pref.paragraph, if_pos hany]
    rfl
  rw [filterMap_eq_map_of_forall _ _ (translatableOf units) hmain, List.map_map]
  rfl

/-- In a list of units with pairwise distinct locations containing `pref`,
only `pref`'s own expansion carries `pref`'s location. -/
theorem flatMap_filter_paragraph (maxC : Nat) :
    ∀ (l : List ParaRef) (pref : ParaRef), pref ∈ l →
      ((l.map (fun u => u.paragraph)).Nodup) →
      (l.flatMap (expandUnit maxC)).filter (fun it => it.paragraph == pref.paragraph)
        = expandUnit maxC pref := by
  intro l
  induction l with
  | nil => intro pref h _; simp at h
  | cons u rest ih =>
    intro pref hmem hnd
    rw [List.flatMap_cons, List.filter_append]
    rw [List.map_cons, List.nodup_cons] at hnd
    obtain ⟨hnotin, hnd2⟩ := hnd
    rcases List.mem_cons.mp hmem with heq | hmem2
    · subst heq
      have h1 : (expandUnit maxC pref).filter
          (fun it => it.paragraph == pref.paragraph) = expandUnit maxC pref := by
        rw [List.filter_eq_self]
        intro it hit
        rw [expandUnit_paragraph maxC pref it hit]
        exact beq_self_eq_true _
      have h2 : (rest.flatMap (expandUnit maxC)).filter
          (fun it => it.paragraph == pref.paragraph) = [] := by
        rw [List.filter_eq_nil_iff]
        intro it hit
        obtain ⟨v, hv, hitv⟩ := List.mem_flatMap.mp hit
        rw [expandUnit_paragraph maxC v it hitv]
        simp only [beq_iff_eq]
        intro hcontra
        exact hnotin (hcontra ▸ List.mem_map_of_mem (fun x : ParaRef => x.paragraph) hv)
      rw [h1, h2, List.append_nil]
    · have hne : ¬(u.paragraph = pref.paragraph) := by
        intro h
        exact hnotin (h ▸ List.mem_map_of_mem (fun x : ParaRef => x.paragraph) hmem2)
      have h1 : (expandUnit maxC u).filter
          (fun it => it.paragraph == pref.paragraph) = [] := by
        rw [List.filter_eq_nil_iff]
        intro it hit
        rw [expandUnit_paragraph maxC u it hit]
        simp only [beq_iff_eq]
        exact hne
      rw [h1, List.nil_append, ih pref hmem2 hnd2]

/-- With identity translation and pairwise distinct locations, the
writeback pass commits to every translatable unit, in order, exactly its
original text. -/
theorem commits_identity (maxC maxI : Nat) (units : List ParaRef) (hC : 0 < maxC)
    (hnd : ((translatableOf units).map (fun u => u.paragraph)).Nodup) :
    translate_docx_commits (fun ts => ts) maxC maxI units
      = (translatableOf units).map
          (fun u => (u.paragraph, textOrEmpty u.original_text)) := by
  rw [translate_docx_commits_def]
  apply filterMap_eq_map_of_forall
  intro pref hpref
  have hnb := mem_translatable_not_blank units pref hpref
  rw [accumulate_lookup_id]
  rw [batcher_flatten maxC maxI (translatableOf units)]
  have hfil := flatMap_filter_paragraph maxC (translatableOf units) pref hpref hnd
  have hany : (((translatableOf units).flatMap (expandUnit maxC)).map
      (fun it => it.paragraph)).any (fun x => x == pref.paragraph) = true := by
    cases hexp : expandUnit maxC pref with
    | nil => exact absurd hexp (expandUnit_ne_nil maxC hC pref hnb)
    | cons it' l' =>
      have hit : it' ∈ (translatableOf units).flatMap (expandUnit maxC) :=
        List.mem_flatMap.mpr ⟨pref, hpref, by rw [hexp]; exact List.mem_cons_self it' l'⟩
      refine List.any_eq_true.mpr ⟨it'.paragraph, List.mem_map_of_mem _ hit, ?_⟩
      rw [expandUnit_paragraph maxC pref it' (by rw [hexp]; exact List.mem_cons_self it' l')]
      exact beq_self_eq_true _
  rw [if_pos hany, hfil]
  show some (pref.paragraph,
      ((expandUnit maxC pref).map (fun it => textOrEmpty it.original_text)).flatten)
    = some (pref.paragraph, textOrEmpty pref.original_text)
  rw [expandUnit_texts_flatten maxC hC pref hnb]

/-! ### The retry loop of the translation client -/

theorem tbGo_succ (responses : Nat → Response) (texts : List Text) (a r : Nat)
    (sleeps : List ℚ) :
    tbGo responses texts a (r + 1) sleeps
      = match attemptResult texts (responses a) with
        | some out => TBOut.mk out a sleeps
        | none => tbGo responses texts (a + 1) r (sleeps ++ [(3 / 2 : ℚ) * a]) := rfl

theorem tbGo_attemptsMade_le (responses : Nat → Response) (texts : List Text) :
    ∀ (r a : Nat) (sleeps : List ℚ),
      (tbGo responses texts a r sleeps).attemptsMade ≤ a - 1 + r := by
  intro r
  induction r with
  | zero => intro a sleeps; exact Nat.le_refl _
  | succ r ih =>
    intro a sleeps
    rw [tbGo_succ]
    cases attemptResult texts (responses a) with
    | some out =>
      show a ≤ a - 1 + (r + 1)
      omega
    | none =>
      show (tbGo responses texts (a + 1) r (sleeps ++ [(3 / 2 : ℚ) * a])).attemptsMade
        ≤ a - 1 + (r + 1)
      have := ih (a + 1) (sleeps ++ [(3 / 2 : ℚ) * a])
      omega

theorem tbGo_sleeps_spec (responses : Nat → Response) (texts : List Text) :
    ∀ (r a : Nat) (sleeps : List ℚ),
      (∀ i, i < sleeps.length → sleeps.getD i 0 = (3 / 2 : ℚ) * (i + 1)) →
      sleeps.length + 1 = a →
      ∀ i, i < (tbGo responses texts a r sleeps).sleeps.length →
        (tbGo responses texts a r sleeps).sleeps.getD i 0 = (3 / 2 : ℚ) * (i + 1) := by
  intro r
  induction r with
  | zero => intro a sleeps hinv _ i hi; exact hinv i hi
  | succ r ih =>
    intro a sleeps hinv hlen
    rw [tbGo_succ]
    cases attemptResult texts (responses a) with
    | some out => exact hinv
    | none =>
      show ∀ i, i < (tbGo responses texts (a + 1) r
          (sleeps ++ [(3 / 2 : ℚ) * a])).sleeps.length → _
      refine ih (a + 1) (sleeps ++ [(3 / 2 : ℚ) * a]) ?_ ?_
      · intro j hj
        rw [List.length_append, List.length_singleton] at hj
        rcases Nat.lt_or_ge j sleeps.length with hlt | hge
        · rw [List.getD_append _ _ _ _ hlt]
          exact hinv j hlt
        · have hj2 : j = sleeps.length := by omega
          subst hj2
          rw [List.getD_append_right _ _ _ _ le_rfl]
          simp only [Nat.sub_self, List.getD_cons_zero]
          have hcast : ((sleeps.length : ℚ) + 1) = ((a : ℚ)) := by
            exact_mod_cast congrArg Nat.cast hlen
          rw [hcast]
      · rw [List.length_append, List.length_singleton]
        omega

theorem tbGo_all_fail (responses : Nat → Response) (texts : List Text) :
    ∀ (r a : Nat) (sleeps : List ℚ), 1 ≤ a →
      (∀ b, a ≤ b → b < a + r → attemptResult texts (responses b) = none) →
      (tbGo responses texts a r sleeps).result = texts
      ∧ (tbGo responses texts a r sleeps).attemptsMade = a - 1 + r
      ∧ (tbGo responses texts a r sleeps).sleeps.length = sleeps.length + r := by
  intro r
  induction r with
  | zero => intro a sleeps _ _; exact ⟨rfl, rfl, rfl⟩
  | succ r ih =>
    intro a sleeps ha hfail
    have hstep : tbGo responses texts a (r + 1) sleeps
        = tbGo responses texts (a + 1) r (sleeps ++ [(3 / 2 : ℚ) * a]) := by
      rw [tbGo_succ, hfail a le_rfl (by omega)]
    rw [hstep]
    obtain ⟨h1, h2, h3⟩ := ih (a + 1) (sleeps ++ [(3 / 2 : ℚ) * a]) (by omega)
      (fun b hb1 hb2 => hfail b (by omega) (by omega))
    refine ⟨h1, by omega, ?_⟩
    rw [h3, List.length_append, List.length_singleton]
    omega

theorem tbGo_length_preserving (responses : Nat → Response) (texts : List Text)
    (hgood : ∀ a xs, responses a = Response.ok (RespTT.list xs) → xs.length = texts.length) :
    ∀ (r a : Nat) (sleeps : List ℚ),
      (tbGo responses texts a r sleeps).result.length = texts.length := by
  intro r
  induction r with
  | zero => intro a sleeps; rfl
  | succ r ih =>
    intro a sleeps
    rw [tbGo_succ]
    cases hres : attemptResult texts (responses a) with
    | none => exact ih (a + 1) (sleeps ++ [(3 / 2 : ℚ) * a])
    | some out =>
      show out.length = texts.length
      cases hr : responses a with
      | err => rw [hr] at hres; exact absurd hres (by simp [attemptResult])
      | ok tt =>
        cases tt with
        | list xs =>
          rw [hr] at hres
          have hout : out = xs := by
            simp [attemptResult] at hres
            exact hres.symm
          rw [hout]
          exact hgood a xs hr
        | str s =>
          rw [hr] at hres
          by_cases h1 : texts.length = 1
          · have hout : out = [s] := by
              simp [attemptResult, h1] at hres
              exact hres.symm
            rw [hout, h1]
            rfl
          · exact absurd hres (by simp [attemptResult, h1])
        | other => rw [hr] at hres; exact absurd hres (by simp [attemptResult])

/-! ### Claim theorems -/

/-- C1: for every input sequence of units (with a length-preserving
translation client, as its contract guarantees, and a positive character
limit), the sequence of locations receiving a writeback commit equals, in
membership and order, the locations of the non-blank input units; and a
blank unit (null or whitespace-only text) never enters any batch: the
batcher's output is unchanged by removing blank units first. -/
theorem commit_locations_match (maxC maxI : Nat) (tr : List Text → List Text)
    (units items : List ParaRef) (hC : 0 < maxC)
    (htr : ∀ l, (tr l).length = l.length) :
    (translate_docx_commits tr maxC maxI units).map Prod.fst
      = (units.filter (fun u => !(is_blank u.original_text))).map (fun u => u.paragraph)
    ∧ batcher maxC maxI items
      = batcher maxC maxI (items.filter (fun u => !(is_blank u.original_text))) := by
  constructor
  · exact commits_map_fst tr maxC maxI units hC htr
  · exact batcherGo_filter_blank maxC maxI items [] 0

theorem commit_locations_match_witness :
    (translate_docx_commits (fun ts => ts) 20000 50
        [ParaRef.mk 0 none, ParaRef.mk 1 (some ['h', 'i']),
          ParaRef.mk 2 (some [' '])]).map Prod.fst
      = ([ParaRef.mk 0 none, ParaRef.mk 1 (some ['h', 'i']),
          ParaRef.mk 2 (some [' '])].filter
          (fun u => !(is_blank u.original_text))).map (fun u => u.paragraph)
    ∧ batcher 20000 50 [ParaRef.mk 3 none]
      = batcher 20000 50
          ([ParaRef.mk 3 none].filter (fun u => !(is_blank u.original_text))) :=
  commit_locations_match 20000 50 (fun ts => ts) _ _ (by decide) (fun _ => rfl)

/-- C4: the translation client's retry loop issues at most `RETRY_LIMIT`
remote attempts, sleeps `1.5 * attempt_number` seconds after each failed
attempt (the i-th recorded sleep, 0-based, lasts `1.5 * (i+1)`), and when
every attempt fails it returns exactly the original input list unchanged
(the modelled function is total: no remote behaviour makes it raise). -/
theorem translate_batch_retry_fallback (responses : Nat → Response) (texts : List Text) :
    (libretranslate_translate_batch responses texts).attemptsMade ≤ RETRY_LIMIT
    ∧ (∀ i, i < (libretranslate_translate_batch responses texts).sleeps.length →
        (libretranslate_translate_batch responses texts).sleeps.getD i 0
          = (3 / 2 : ℚ) * (i + 1))
    ∧ ((∀ a, 1 ≤ a → a ≤ RETRY_LIMIT → attemptResult texts (responses a) = none) →
        (libretranslate_translate_batch responses texts).result = texts
        ∧ (libretranslate_translate_batch responses texts).attemptsMade = RETRY_LIMIT
        ∧ (libretranslate_translate_batch responses texts).sleeps.length = RETRY_LIMIT) := by
  refine ⟨?_, ?_, ?_⟩
  · have h := tbGo_attemptsMade_le responses texts RETRY_LIMIT 1 []
    calc (libretranslate_translate_batch responses texts).attemptsMade
        ≤ 1 - 1 + RETRY_LIMIT := h
      _ = RETRY_LIMIT := by omega
  · intro i hi
    exact tbGo_sleeps_spec responses texts RETRY_LIMIT 1 []
      (fun j hj => by simp at hj) rfl i hi
  · intro hfail
    obtain ⟨h1, h2, h3⟩ := tbGo_all_fail responses texts RETRY_LIMIT 1 [] (by omega)
      (fun b hb1 hb2 => hfail b hb1 (by omega))
    refine ⟨h1, ?_, ?_⟩
    · show (tbGo responses texts 1 RETRY_LIMIT []).attemptsMade = RETRY_LIMIT
      omega
    · show (tbGo responses texts 1 RETRY_LIMIT []).sleeps.length = RETRY_LIMIT
      rw [h3]
      rfl

theorem translate_batch_retry_fallback_witness :
    (libretranslate_translate_batch (fun _ => Response.err)
        [['h'], ['i']]).attemptsMade ≤ RETRY_LIMIT
    ∧ (∀ i, i < (libretranslate_translate_batch (fun _ => Response.err)
          [['h'], ['i']]).sleeps.length →
        (libretranslate_translate_batch (fun _ => Response.err)
            [['h'], ['i']]).sleeps.getD i 0 = (3 / 2 : ℚ) * (i + 1))
    ∧ ((∀ a, 1 ≤ a → a ≤ RETRY_LIMIT →
          attemptResult [['h'], ['i']] ((fun _ => Response.err) a) = none) →
        (libretranslate_translate_batch (fun _ => Response.err)
            [['h'], ['i']]).result = [['h'], ['i']]
        ∧ (libretranslate_translate_batch (fun _ => Response.err)
            [['h'], ['i']]).attemptsMade = RETRY_LIMIT
        ∧ (libretranslate_translate_batch (fun _ => Response.err)
            [['h'], ['i']]).sleeps.length = RETRY_LIMIT) :=
  translate_batch_retry_fallback (fun _ => Response.err) [['h'], ['i']]

/-- C5 counterexample: on input `["a", "b"]` a remote reply whose
`translatedText` is the single-element list `["z"]` is returned as a
success on the first attempt — the wrong-count list is neither retried
nor rejected, and the output length (1) differs from the input length
(2), contradicting the claim. -/
theorem translate_batch_wrong_count_cex :
    (libretranslate_translate_batch (fun _ => Response.ok (RespTT.list [['z']]))
        [['a'], ['b']]).result = [['z']]
    ∧ ¬ ((libretranslate_translate_batch (fun _ => Response.ok (RespTT.list [['z']]))
        [['a'], ['b']]).result.length = ([['a'], ['b']] : List Text).length)
    ∧ (libretranslate_translate_batch (fun _ => Response.ok (RespTT.list [['z']]))
        [['a'], ['b']]).attemptsMade = 1 := by
  decide

/-- C5 (amended): `translate_batch` returns a same-length list provided
every list-shaped remote reply carries exactly one string per input; a
string-shaped reply with more than one input, a missing field, or a
non-list non-string field is treated as a failure and retried, but a
list-shaped reply of the wrong element count is returned as-is. -/
theorem translate_batch_length_amended (responses : Nat → Response) (texts : List Text)
    (hgood : ∀ a xs, responses a = Response.ok (RespTT.list xs) → xs.length = texts.length) :
    (libretranslate_translate_batch responses texts).result.length = texts.length :=
  tbGo_length_preserving responses texts hgood RETRY_LIMIT 1 []

theorem translate_batch_length_amended_witness :
    (libretranslate_translate_batch (fun _ => Response.err)
        [['u'], ['v']]).result.length = ([['u'], ['v']] : List Text).length :=
  translate_batch_length_amended (fun _ => Response.err) [['u'], ['v']]
    (fun _ _ h => Response.noConfusion h)

/-- C6: every batch emitted by the batcher is non-empty, and (for a
positive item limit) satisfies the character limit and the item limit or
is a singleton oversized-chunk batch. -/
theorem batch_limits_or_oversized (maxC maxI : Nat) (items : List ParaRef)
    (hI : 1 ≤ maxI) :
    ∀ b ∈ batcher maxC maxI items,
      b ≠ []
      ∧ (batchPayload b ≤ maxC ∧ b.length ≤ maxI
        ∨ isOversizedChunkBatch maxC items b) := by
  intro b hb
  obtain ⟨h1, h2, h3⟩ := batcherGo_bounds maxC maxI hI items [] 0
    (by simp) (by simp [batchPayload]) rfl b hb
  exact ⟨h1, Or.inl ⟨h2, h3⟩⟩

theorem batch_limits_or_oversized_witness :
    [ParaRef.mk 4 (some ['h', 'i'])] ≠ []
    ∧ (batchPayload [ParaRef.mk 4 (some ['h', 'i'])] ≤ 20000
        ∧ [ParaRef.mk 4 (some ['h', 'i'])].length ≤ 50
      ∨ isOversizedChunkBatch 20000 [ParaRef.mk 4 (some ['h', 'i'])]
          [ParaRef.mk 4 (some ['h', 'i'])]) :=
  batch_limits_or_oversized 20000 50 [ParaRef.mk 4 (some ['h', 'i'])] (by decide)
    [ParaRef.mk 4 (some ['h', 'i'])] (by decide)

/-- C7 counterexample: two non-blank units sharing location 0 ("a" and
"b", identity translation, limits 10/50) make the writeback pass commit
to location 0 twice — refuting "no location is ever committed twice"
(and the accumulator entry is never removed: the second pass re-reads
it). -/
theorem writeback_double_commit_cex :
    ((translate_docx_commits (fun ts => ts) 10 50
        [ParaRef.mk 0 (some ['a']), ParaRef.mk 0 (some ['b'])]).map Prod.fst = [0, 0])
    ∧ ¬ ((translate_docx_commits (fun ts => ts) 10 50
        [ParaRef.mk 0 (some ['a']), ParaRef.mk 0 (some ['b'])]).map Prod.fst).Nodup := by
  decide

/-- C7 (amended): the writeback pass commits once per occurrence of a
location among the non-blank units (reading, not removing, the
accumulator entry); hence when the non-blank units' locations are
pairwise distinct, every location is committed exactly once. -/
theorem writeback_commit_once_amended (maxC maxI : Nat) (tr : List Text → List Text)
    (units : List ParaRef) (hC : 0 < maxC)
    (htr : ∀ l, (tr l).length = l.length)
    (hnd : ((units.filter (fun u => !(is_blank u.original_text))).map
        (fun u => u.paragraph)).Nodup) :
    (translate_docx_commits tr maxC maxI units).map Prod.fst
      = (units.filter (fun u => !(is_blank u.original_text))).map (fun u => u.paragraph)
    ∧ ((translate_docx_commits tr maxC maxI units).map Prod.fst).Nodup := by
  have h := commits_map_fst tr maxC maxI units hC htr
  refine ⟨h, ?_⟩
  rw [h]
  exact hnd

theorem writeback_commit_once_amended_witness :
    (translate_docx_commits (fun ts => ts) 10 50
        [ParaRef.mk 0 (some ['a']), ParaRef.mk 1 (some ['b'])]).map Prod.fst
      = ([ParaRef.mk 0 (some ['a']), ParaRef.mk 1 (some ['b'])].filter
          (fun u => !(is_blank u.original_text))).map (fun u => u.paragraph)
    ∧ ((translate_docx_commits (fun ts => ts) 10 50
        [ParaRef.mk 0 (some ['a']), ParaRef.mk 1 (some ['b'])]).map Prod.fst).Nodup :=
  writeback_commit_once_amended 10 50 (fun ts => ts) _ (by decide) (fun _ => rfl)
    (by decide)

/-- C9 (implicit): every chunk produced by splitting has length at most
`max_chars`, so (for `max_items ≥ 1`) every emitted batch — singleton
oversized-chunk batches included — satisfies both the character and the
item limit. -/
theorem batches_always_within_limits (maxC maxI : Nat) (items : List ParaRef)
    (hI : 1 ≤ maxI) :
    (∀ (l : Text), ∀ c ∈ splitChunks maxC l, c.length ≤ maxC)
    ∧ ∀ b ∈ batcher maxC maxI items, batchPayload b ≤ maxC ∧ b.length ≤ maxI := by
  refine ⟨fun l c hc => splitChunks_mem_length maxC l c hc, fun b hb => ?_⟩
  obtain ⟨_, h2, h3⟩ := batcherGo_bounds maxC maxI hI items [] 0
    (by simp) (by simp [batchPayload]) rfl b hb
  exact ⟨h2, h3⟩

theorem batches_always_within_limits_witness :
    (∀ (l : Text), ∀ c ∈ splitChunks 20000 l, c.length ≤ 20000)
    ∧ ∀ b ∈ batcher 20000 50 [ParaRef.mk 9 (some ['o', 'k'])],
        batchPayload b ≤ 20000 ∧ b.length ≤ 50 :=
  batches_always_within_limits 20000 50 [ParaRef.mk 9 (some ['o', 'k'])] (by decide)

/-- C2: when the next unit is non-blank and its text length exceeds
`max_chars` (positive), the batcher first emits the pending batch if
non-empty, then emits exactly `ceil(L / max_chars)` chunks — chunk `i`
being the contiguous slice `txt[i*max_chars : (i+1)*max_chars]`, of
length exactly `max_chars` except possibly the last, each as its own
singleton batch in slice order — and continues with an empty pending
batch. -/
theorem oversized_unit_split (maxC maxI : Nat) (u : ParaRef)
    (rest batch : List ParaRef) (total : Nat) (hC : 0 < maxC)
    (hnb : is_blankS (textOrEmpty u.original_text) = false)
    (hL : maxC < (textOrEmpty u.original_text).length) :
    batcherGo maxC maxI (u :: rest) batch total
      = (if batch.isEmpty then [] else [batch])
        ++ (splitChunks maxC (textOrEmpty u.original_text)).map
            (fun c => [ParaRef.mk u.paragraph (some c)])
        ++ batcherGo maxC maxI rest [] 0
    ∧ (splitChunks maxC (textOrEmpty u.original_text)).length
        = ((textOrEmpty u.original_text).length + maxC - 1) / maxC
    ∧ (∀ i, i < (splitChunks maxC (textOrEmpty u.original_text)).length →
        (splitChunks maxC (textOrEmpty u.original_text)).getD i []
          = ((textOrEmpty u.original_text).drop (i * maxC)).take maxC)
    ∧ (∀ i, i + 1 < (splitChunks maxC (textOrEmpty u.original_text)).length →
        ((splitChunks maxC (textOrEmpty u.original_text)).getD i []).length = maxC)
    ∧ (∀ c ∈ splitChunks maxC (textOrEmpty u.original_text), c.length ≤ maxC) :=
  ⟨by simp [batcherGo, hnb, hL],
    splitChunks_length maxC hC _,
    fun i hi => splitChunks_getD maxC hC _ i hi,
    fun i hi => splitChunks_getD_full maxC hC _ i hi,
    fun c hc => splitChunks_mem_length maxC _ c hc⟩

theorem oversized_unit_split_witness :
    batcherGo 2 50 [ParaRef.mk 5 (some ['a', 'b', 'c', 'd', 'e'])] [] 0
      = (if ([] : List ParaRef).isEmpty then [] else [([] : List ParaRef)])
        ++ (splitChunks 2 ['a', 'b', 'c', 'd', 'e']).map
            (fun c => [ParaRef.mk 5 (some c)])
        ++ batcherGo 2 50 [] [] 0
    ∧ (splitChunks 2 ['a', 'b', 'c', 'd', 'e']).length
        = ((['a', 'b', 'c', 'd', 'e'] : Text).length + 2 - 1) / 2
    ∧ (∀ i, i < (splitChunks 2 ['a', 'b', 'c', 'd', 'e']).length →
        (splitChunks 2 ['a', 'b', 'c', 'd', 'e']).getD i []
          = ((['a', 'b', 'c', 'd', 'e'] : Text).drop (i * 2)).take 2)
    ∧ (∀ i, i + 1 < (splitChunks 2 ['a', 'b', 'c', 'd', 'e']).length →
        ((splitChunks 2 ['a', 'b', 'c', 'd', 'e']).getD i []).length = 2)
    ∧ (∀ c ∈ splitChunks 2 ['a', 'b', 'c', 'd', 'e'], c.length ≤ 2) :=
  oversized_unit_split 2 50 (ParaRef.mk 5 (some ['a', 'b', 'c', 'd', 'e'])) [] [] 0
    (by decide) (by decide) (by decide)

/-- C3: when the translation function is the identity (for instance, the
client's fallback when every remote attempt fails), the writeback pass
commits to every non-blank unit's location exactly its original text — in
particular the chunks of a split oversized unit concatenate back, in
accumulation order, to the original text.  (Locations are assumed
pairwise distinct, as the spec's data model requires.) -/
theorem identity_translation_roundtrip (maxC maxI : Nat)
    (tr : List Text → List Text) (units : List ParaRef) (hC : 0 < maxC)
    (hid : ∀ ts, tr ts = ts)
    (hnd : ((units.filter (fun u => !(is_blank u.original_text))).map
        (fun u => u.paragraph)).Nodup) :
    translate_docx_commits tr maxC maxI units
      = (units.filter (fun u => !(is_blank u.original_text))).map
          (fun u => (u.paragraph, textOrEmpty u.original_text)) := by
  have htr : tr = (fun ts => ts) := funext hid
  rw [htr]
  exact commits_identity maxC maxI units hC hnd

theorem identity_translation_roundtrip_witness :
    translate_docx_commits
        (fun ts => (libretranslate_translate_batch (fun _ => Response.err) ts).result)
        2 50 [ParaRef.mk 0 (some ['a', 'b', 'c']), ParaRef.mk 1 (some ['x'])]
      = ([ParaRef.mk 0 (some ['a', 'b', 'c']), ParaRef.mk 1 (some ['x'])].filter
          (fun u => !(is_blank u.original_text))).map
          (fun u => (u.paragraph, textOrEmpty u.original_text)) :=
  identity_translation_roundtrip 2 50
    (fun ts => (libretranslate_translate_batch (fun _ => Response.err) ts).result)
    [ParaRef.mk 0 (some ['a', 'b', 'c']), ParaRef.mk 1 (some ['x'])] (by decide)
    (fun ts => (tbGo_all_fail (fun _ => Response.err) ts RETRY_LIMIT 1 [] (by decide)
      (fun _ _ _ => rfl)).1)
    (by decide)

/-- C10 (implicit): two distinct non-blank units sharing one location
(each fitting within `max_chars`) are accumulated under a single key in
arrival order, and the writeback pass commits the full concatenation of
both translations once per occurrence of that location in the unit list —
the same concatenated text is written to the location twice. -/
theorem shared_location_double_writeback (maxC maxI : Nat) (p : Nat) (t1 t2 : Text)
    (h1 : is_blankS t1 = false) (h2 : is_blankS t2 = false)
    (hl1 : t1.length ≤ maxC) (hl2 : t2.length ≤ maxC) :
    translate_docx_commits (fun ts => ts) maxC maxI
        [ParaRef.mk p (some t1), ParaRef.mk p (some t2)]
      = [(p, t1 ++ t2), (p, t1 ++ t2)] := by
  have htl : translatableOf [ParaRef.mk p (some t1), ParaRef.mk p (some t2)]
      = [ParaRef.mk p (some t1), ParaRef.mk p (some t2)] := by
    simp [translatableOf, is_blank, h1, h2]
  have hexp1 : expandUnit maxC (ParaRef.mk p (some t1)) = [ParaRef.mk p (some t1)] := by
    rw [expandUnit_not_blank maxC (ParaRef.mk p (some t1)) h1]
    rw [if_neg (by show ¬(maxC < t1.length); omega)]
  have hexp2 : expandUnit maxC (ParaRef.mk p (some t2)) = [ParaRef.mk p (some t2)] := by
    rw [expandUnit_not_blank maxC (ParaRef.mk p (some t2)) h2]
    rw [if_neg (by show ¬(maxC < t2.length); omega)]
  have hflat : (batcher maxC maxI
      [ParaRef.mk p (some t1), ParaRef.mk p (some t2)]).flatten
      = [ParaRef.mk p (some t1), ParaRef.mk p (some t2)] := by
    rw [batcher_flatten, List.flatMap_cons, hexp1, List.flatMap_cons, hexp2,
      List.flatMap_nil]
    rfl
  have hlook : accLookup (accumulate (fun ts => ts)
      (batcher maxC maxI [ParaRef.mk p (some t1), ParaRef.mk p (some t2)])) p
      = some [t1, t2] := by
    rw [accumulate_lookup_id, hflat]
    rw [if_pos (by simp)]
    simp [textOrEmpty]
  rw [translate_docx_commits_def, htl]
  rw [List.filterMap_cons, List.filterMap_cons, List.filterMap_nil]
  rw [hlook]
  show (p, ([t1, t2] : List Text).flatten) :: (p, ([t1, t2] : List Text).flatten) :: []
    = [(p, t1 ++ t2), (p, t1 ++ t2)]
  simp

theorem shared_location_double_writeback_witness :
    translate_docx_commits (fun ts => ts) 10 50
        [ParaRef.mk 7 (some ['a']), ParaRef.mk 7 (some ['b'])]
      = [(7, ['a'] ++ ['b']), (7, ['a'] ++ ['b'])] :=
  shared_location_double_writeback 10 50 7 ['a'] ['b']
    (by decide) (by decide) (by decide) (by decide)

theorem batcherGo_step_blank (maxC maxI : Nat) (it : ParaRef) (rest batch : List ParaRef)
    (total : Nat) (txt : Text) (htxt : textOrEmpty it.original_text = txt)
    (hbl : is_blankS txt = true) :
    batcherGo maxC maxI (it :: rest) batch total
      = batcherGo maxC maxI rest batch total := by
  subst htxt
  simp [batcherGo, hbl]

theorem batcherGo_step_append (maxC maxI : Nat) (it : ParaRef) (rest batch : List ParaRef)
    (total : Nat) (txt : Text) (htxt : textOrEmpty it.original_text = txt)
    (hbl : is_blankS txt = false) (hov : ¬(maxC < txt.length))
    (hg : ¬(maxI < batch.length + 1 ∨ maxC < total + txt.length)) :
    batcherGo maxC maxI (it :: rest) batch total
      = batcherGo maxC maxI rest (batch ++ [it]) (total + txt.length) := by
  subst htxt
  simp [batcherGo, hbl, hov, hg]

theorem batcherGo_step_oversized (maxC maxI : Nat) (it : ParaRef)
    (rest batch : List ParaRef) (total : Nat) (txt : Text)
    (htxt : textOrEmpty it.original_text = txt)
    (hbl : is_blankS txt = false) (hov : maxC < txt.length) :
    batcherGo maxC maxI (it :: rest) batch total
      = (if batch.isEmpty then [] else [batch])
        ++ (splitChunks maxC txt).map (fun c => [ParaRef.mk it.paragraph (some c)])
        ++ batcherGo maxC maxI rest [] 0 := by
  subst htxt
  simp [batcherGo, hbl, hov]

theorem splitChunks_x25000 :
    splitChunks 20000 (List.replicate 25000 'x')
      = [List.replicate 20000 'x', List.replicate 5000 'x'] := by
  have h1 : (List.replicate 25000 'x' : Text) ≠ [] := by
    rw [show (25000 : Nat) = 24999 + 1 from rfl, List.replicate_succ]
    exact List.cons_ne_nil _ _
  have h2 : (List.replicate 5000 'x' : Text) ≠ [] := by
    rw [show (5000 : Nat) = 4999 + 1 from rfl, List.replicate_succ]
    exact List.cons_ne_nil _ _
  have hk : 0 < 20000 := by norm_num
  have hm1 : (20000 : Nat) ⊓ 25000 = 20000 := by norm_num
  have hs1 : (25000 : Nat) - 20000 = 5000 := by norm_num
  have hm2 : (20000 : Nat) ⊓ 5000 = 5000 := by norm_num
  have hs2 : (5000 : Nat) - 20000 = 0 := by norm_num
  rw [splitChunks_eq 20000 hk _, if_neg h1, List.take_replicate, List.drop_replicate,
    hm1, hs1]
  rw [splitChunks_eq 20000 hk _, if_neg h2, List.take_replicate, List.drop_replicate,
    hm2, hs2]
  rw [List.replicate_zero, splitChunks_nil]

/-- C8: on the concrete input `["", "Halo dunia", "x"*25000]` with
`max_chars = 20000` and `max_items = 50`, the batcher skips the blank
first unit, emits `["Halo dunia"]` as one batch, and splits the third
unit into two chunks of lengths 20000 and 5000, each emitted as its own
singleton batch, in that order. -/
theorem concrete_scenario_batches :
    batcher 20000 50
        [ParaRef.mk 0 (some []),
          ParaRef.mk 1 (some ['H', 'a', 'l', 'o', ' ', 'd', 'u', 'n', 'i', 'a']),
          ParaRef.mk 2 (some (List.replicate 25000 'x'))]
      = [[ParaRef.mk 1 (some ['H', 'a', 'l', 'o', ' ', 'd', 'u', 'n', 'i', 'a'])],
         [ParaRef.mk 2 (some (List.replicate 20000 'x'))],
         [ParaRef.mk 2 (some (List.replicate 5000 'x'))]]
    ∧ (List.replicate 20000 'x' : Text).length = 20000
    ∧ (List.replicate 5000 'x' : Text).length = 5000 := by
  refine ⟨?_, List.length_replicate 20000 'x', List.length_replicate 5000 'x'⟩
  have hhalo : is_blankS ['H', 'a', 'l', 'o', ' ', 'd', 'u', 'n', 'i', 'a'] = false := by
    decide
  have hx : pyIsSpace 'x' = false := by decide
  have hxblank : is_blankS (List.replicate 25000 'x') = false := by
    unfold is_blankS
    rw [show (25000 : Nat) = 24999 + 1 from rfl, List.replicate_succ, List.all_cons,
      hx, Bool.false_and]
  have hxlen : (20000 : Nat) < (List.replicate 25000 'x' : Text).length := by
    rw [List.length_replicate]
    norm_num
  rw [batcher,
    batcherGo_step_blank 20000 50 (ParaRef.mk 0 (some [])) _ [] 0 [] rfl rfl,
    batcherGo_step_append 20000 50
      (ParaRef.mk 1 (some ['H', 'a', 'l', 'o', ' ', 'd', 'u', 'n', 'i', 'a'])) _ [] 0
      ['H', 'a', 'l', 'o', ' ', 'd', 'u', 'n', 'i', 'a'] rfl hhalo (by decide) (by decide),
    batcherGo_step_oversized 20000 50
      (ParaRef.mk 2 (some (List.replicate 25000 'x'))) _ _ _
      (List.replicate 25000 'x') rfl hxblank hxlen,
    splitChunks_x25000]
  rfl
